import Mathlib

/-!
Verification development for the `es-modules-middleware` repository.

The source under scrutiny is `src/lib/index.js`, which exports:
  * `resolvePath(filepath, url)`   — per-specifier resolution (lines 23-45),
  * `transformJs(filepath, src)`   — the regex-based import/export rewriter (lines 53-65),
  * `EsModulesMiddlewareFactory`   — the Karma middleware (lines 74-137),
  * `middleware`                   — the connect-style middleware (lines 148-192).

Text is modelled as `List Char`.  External collaborators (the Node `path`
module, the filesystem, the `mime` lookup, and the `resolve` package) are
modelled as explicit parameters or as small faithful models, as noted at
each definition.
-/

/-! ## Definitions -/

/-- Single-quote character, written via its code point. -/
def sglq : Char := Char.ofNat 39

/-- Single-quote as a one-character string. -/
def sglqs : List Char := [sglq]

/-- Characters matched by the JavaScript regex class `\s` (ASCII portion;
the Unicode space separators JS also accepts do not occur in the texts
considered here). -/
def isJsSpace (c : Char) : Bool :=
  c = ' ' || c = '\t' || c = '\n' || c = '\r' || c = Char.ofNat 11 || c = Char.ofNat 12

/-- Characters matched by the JavaScript regex class `\w`. -/
def isWordChar (c : Char) : Bool :=
  (('a' ≤ c && c ≤ 'z') || ('A' ≤ c && c ≤ 'Z') || ('0' ≤ c && c ≤ '9') || c = '_')

/-- Quote delimiters accepted by the statement regexes: `["']`. -/
def isQuote (c : Char) : Bool := c = '"' || c = sglq

/-- Characters matched by `[\t ]` (the run allowed before the trailing token). -/
def isGapChar (c : Char) : Bool := c = ' ' || c = '\t'

/-- First-character class `[\{\*\w]` of the captured binding clause. -/
def isPreStart (c : Char) : Bool := c = '{' || c = '*' || isWordChar c

/-- Drop a literal prefix, returning the remainder when the prefix is present. -/
def dropLit : List Char → List Char → Option (List Char)
  | [], s => some s
  | _ :: _, [] => none
  | c :: cs, d :: ds => if c = d then dropLit cs ds else none

/-- Model of JavaScript `String.prototype.startsWith`. -/
def startsWithCL (pfx s : List Char) : Bool := (dropLit pfx s).isSome

/-! ## Model of the external Node `path` module (posix flavour)

`path.join`, `path.resolve`, `path.dirname` and `path.relative` are external
collaborators (Node standard library).  They are modelled segmentwise, which
agrees with Node's posix behaviour on the slash-separated inputs exercised
here (trailing-slash preservation quirks are not modelled). -/
/-- Split a path on `/` separators. -/
def splitSlash : List Char → List (List Char)
  | [] => [[]]
  | c :: rest =>
    if c = '/' then [] :: splitSlash rest
    else
      match splitSlash rest with
      | seg :: segs => (c :: seg) :: segs
      | [] => [[c]]

/-- Normalization of path segments: drops empty and `.` segments and
resolves `..` against preceding segments (absolute paths drop leading `..`). -/
def normSegs (isAbs : Bool) : List (List Char) → List (List Char) → List (List Char)
  | acc, [] => acc.reverse
  | acc, seg :: rest =>
    if seg = [] || seg = ['.'] then normSegs isAbs acc rest
    else if seg = ['.', '.'] then
      match acc with
      | top :: acc' =>
        if top = ['.', '.'] then normSegs isAbs (seg :: top :: acc') rest
        else normSegs isAbs acc' rest
      | [] => if isAbs then normSegs isAbs [] rest else normSegs isAbs [seg] rest
    else normSegs isAbs (seg :: acc) rest

/-- Reassemble segments into a path string. -/
def joinSegsAbs (isAbs : Bool) (segs : List (List Char)) : List Char :=
  if isAbs then '/' :: List.intercalate ['/'] segs
  else if List.intercalate ['/'] segs = [] then ['.']
  else List.intercalate ['/'] segs

/-- Model of Node `path.posix.normalize` (modulo trailing-slash preservation). -/
def normalizePath (p : List Char) : List Char :=
  let isAbs := startsWithCL ['/'] p
  joinSegsAbs isAbs (normSegs isAbs [] (splitSlash p))

/-- Model of Node `path.posix.join` restricted to two arguments. -/
def pathJoin (a b : List Char) : List Char :=
  if a = [] then normalizePath b
  else if b = [] then normalizePath a
  else normalizePath (a ++ '/' :: b)

/-- Model of Node `path.posix.resolve` for a single argument, resolved
against the process working directory `cwd`. -/
def pathResolve (cwd p : List Char) : List Char :=
  if startsWithCL ['/'] p then normalizePath p
  else normalizePath (cwd ++ '/' :: p)

/-- Model of Node `path.posix.dirname` (segmentwise). -/
def dirname (p : List Char) : List Char :=
  let isAbs := startsWithCL ['/'] p
  let segs := (splitSlash p).filter (fun seg => decide (seg ≠ []))
  match segs with
  | [] => if isAbs then ['/'] else ['.']
  | [_] => if isAbs then ['/'] else ['.']
  | _ => joinSegsAbs isAbs segs.dropLast

/-- Model of Node `path.posix.relative` on already-absolute arguments:
drop the common leading segments, go up with `..` for what remains of
`fro`, then descend into the remainder of `to`. -/
def pathRelative (fro dst : List Char) : List Char :=
  let fs := (splitSlash fro).filter (fun seg => decide (seg ≠ []))
  let ts := (splitSlash dst).filter (fun seg => decide (seg ≠ []))
  let common := (List.zip fs ts).takeWhile (fun st => decide (st.1 = st.2)) |>.length
  List.intercalate ['/']
    (List.replicate (fs.length - common) ['.', '.'] ++ ts.drop common)

/-! ## The per-specifier resolver (`resolvePath`, src/lib/index.js lines 23-45) -/
/-- Model of the external resolution capabilities `resolvePath` consumes:
`isURL url` is true exactly when `new URL(url)` would succeed, and
`resolveSync basedir url` models `resolve.sync(url, {basedir, packageFilter})`
— `some abs` on success, `none` when the library throws (module not found,
malformed package metadata, ...). -/
structure Resolver where
  isURL : List Char → Bool
  resolveSync : List Char → List Char → Option (List Char)

/-- Line 40 of src/lib/index.js: `result.startsWith('.') ? result : './' + result`. -/
def dotSlash (rel : List Char) : List Char :=
  if startsWithCL ['.'] rel then rel else '.' :: '/' :: rel

/-- `resolvePath` from src/lib/index.js lines 23-45: full URLs are returned
unchanged; otherwise the specifier is resolved from the directory of
`filepath` and re-expressed relative to that directory, `./`-prefixed when
the relative path does not already start with `.`; on resolution failure the
original specifier is returned. -/
def resolvePath (r : Resolver) (filepath url : List Char) : List Char :=
  if r.isURL url then url
  else
    match r.resolveSync (dirname filepath) url with
    | some res => dotSlash (pathRelative (dirname filepath) res)
    | none => url

/-- The `console.error` output of `resolvePath` (line 42):
`Failed to resolve module ${url} : ${e}`.  The exception text `${e}` is not
modelled; the message is modelled up to and including the specifier. -/
def resolveErrors (r : Resolver) (filepath url : List Char) : List (List Char) :=
  if r.isURL url then []
  else
    match r.resolveSync (dirname filepath) url with
    | some _ => []
    | none => ["Failed to resolve module ".data ++ url]

/-! ## The package filter (src/lib/index.js lines 34-37) -/
/-- The package-metadata fields consulted by the `packageFilter` option.
`none` models an absent field; `some []` models a present-but-empty string,
which is falsy in JavaScript just like an absent field. -/
structure Pkg where
  module : Option (List Char)
  jsnextMain : Option (List Char)
  main : Option (List Char)
deriving DecidableEq

/-- JavaScript truthiness of an optional string field. -/
def truthyField : Option (List Char) → Bool
  | none => false
  | some s => decide (s ≠ [])

/-- Lines 34-37 of src/lib/index.js:
`pkg.main = pkg.module || pkg['jsnext:main'] || pkg.main; return pkg;`. -/
def packageFilter (pkg : Pkg) : Pkg :=
  { pkg with
    main :=
      if truthyField pkg.module then pkg.module
      else if truthyField pkg.jsnextMain then pkg.jsnextMain
      else pkg.main }

/-! ## The statement scanner (`transformJs`, src/lib/index.js lines 53-65)

`transformJs` applies two global regex replacements in sequence:

  `/import\s+(|[\{\*\w][^"']*)["']([^"']+)["'][\t ]*($|;|\/\/|\/\*)/gm`
    replaced by  `import ${pre}'${resolvePath(filepath, url)}'${post}`, then

  `/export\s+([\{\*\w][^"']*)\s*from\s*["']([^"']+)["'][\t ]*($|;|\/\/|\/\*)/gm`
    replaced by  `export ${pre} from '${resolvePath(filepath, url)}'${post}`.

Both regexes are deterministic once backtracking is resolved:

  * `\s+` is a maximal nonempty whitespace run (shorter splits make the next
    token start with whitespace, which no alternative accepts);
  * the captured clause cannot contain quotes, so the opening quote is the
    first quote after it, and the specifier `[^"']+` is the maximal nonempty
    quote-free run, closed by the very next character;
  * `[\t ]*` is maximal (a retained tab/space satisfies none of `$;/`),
    and the trailing alternatives `$`, `;`, `//`, `/*` are mutually exclusive;
  * in the export regex the clause `([\{\*\w][^"']*)` is greedy, so `from`
    is placed at the last occurrence that is followed by only whitespace
    before the first quote — equivalently, the text before the first quote,
    with trailing whitespace stripped, must end in the literal `from`, and
    everything before that `from` (whitespace included) is the capture.

The scanner below implements exactly this determinized behaviour. -/
/-- The trailing token captured by `($|;|\/\/|\/\*)`; `eol` is the zero-width
end-of-line match (the `m` flag makes `$` match before a line terminator). -/
inductive PostTok
  | eol
  | semi
  | lineComment
  | blockComment
deriving DecidableEq

/-- The characters the trailing capture contributes to the match. -/
def PostTok.text : PostTok → List Char
  | .eol => []
  | .semi => [';']
  | .lineComment => ['/', '/']
  | .blockComment => ['/', '*']

/-- Match the trailing alternative `($|;|\/\/|\/\*)` at the current point.
`$` is zero-width: the line terminator is not consumed. -/
def matchPost : List Char → Option (PostTok × List Char)
  | [] => some (.eol, [])
  | c :: rest =>
    if c = '\n' || c = '\r' then some (.eol, c :: rest)
    else if c = ';' then some (.semi, rest)
    else if c = '/' then
      match rest with
      | '/' :: r2 => some (.lineComment, r2)
      | '*' :: r2 => some (.blockComment, r2)
      | _ => none
    else none

/-- One successful match of the import regex, in its captured pieces. -/
structure ImpMatch where
  ws : List Char
  pre : List Char
  q1 : Char
  url : List Char
  q2 : Char
  gap : List Char
  post : PostTok
deriving DecidableEq

/-- The exact source text a successful import match covers. -/
def impMatchText (m : ImpMatch) : List Char :=
  "import".data ++ m.ws ++ m.pre ++ m.q1 :: (m.url ++ m.q2 :: (m.gap ++ m.post.text))

/-- Validity of the import binding capture `(|[\{\*\w][^"']*)`:
empty, or starting with `{`, `*` or a word character. -/
def preOkImp : List Char → Bool
  | [] => true
  | c :: _ => isPreStart c

/-- Attempt the import regex at the start of `s`: the literal `import`, a
nonempty whitespace run, the quote-free binding capture (empty or starting
with `[\{\*\w]`), a quote, the nonempty quote-free specifier, a quote, a
tab/space run, and the trailing alternative. -/
def tryImportAt (s : List Char) : Option (ImpMatch × List Char) :=
  match dropLit "import".data s with
  | none => none
  | some s1 =>
    if s1.takeWhile isJsSpace = [] then none
    else if preOkImp ((s1.dropWhile isJsSpace).takeWhile (fun c => !(isQuote c))) then
      match (s1.dropWhile isJsSpace).dropWhile (fun c => !(isQuote c)) with
      | q1 :: s4 =>
        if s4.takeWhile (fun c => !(isQuote c)) = [] then none
        else
          match s4.dropWhile (fun c => !(isQuote c)) with
          | q2 :: s6 =>
            match matchPost (s6.dropWhile isGapChar) with
            | some (post, rest) =>
              some (⟨s1.takeWhile isJsSpace,
                     (s1.dropWhile isJsSpace).takeWhile (fun c => !(isQuote c)),
                     q1, s4.takeWhile (fun c => !(isQuote c)), q2,
                     s6.takeWhile isGapChar, post⟩, rest)
            | none => none
          | [] => none
      | [] => none
    else none

/-- One successful match of the export regex, in its captured pieces.
`ws2` is the whitespace matched by the `\s*` between `from` and the quote. -/
structure ExpMatch where
  ws : List Char
  pre : List Char
  ws2 : List Char
  q1 : Char
  url : List Char
  q2 : Char
  gap : List Char
  post : PostTok
deriving DecidableEq

/-- The exact source text a successful export match covers. -/
def expMatchText (m : ExpMatch) : List Char :=
  "export".data ++ m.ws ++ m.pre ++ "from".data ++ m.ws2 ++
    m.q1 :: (m.url ++ m.q2 :: (m.gap ++ m.post.text))

/-- Validity of the export binding capture `([\{\*\w][^"']*)`: nonempty and
starting with `{`, `*` or a word character. -/
def preOkExp : List Char → Bool
  | [] => false
  | c :: _ => isPreStart c

/-- Attempt the export regex at the start of `s`: the literal `export`, a
nonempty whitespace run, then the text up to the first quote must — after
stripping trailing whitespace (`\s*`) — end in the literal `from`
(checked on the reversed list as the prefix `morf`); the greedy capture is
everything before that `from`.  The quoted specifier, tab/space run and
trailing alternative are as in the import regex. -/
def tryExportAt (s : List Char) : Option (ExpMatch × List Char) :=
  match dropLit "export".data s with
  | none => none
  | some s1 =>
    if s1.takeWhile isJsSpace = [] then none
    else
      match dropLit "morf".data
          ((((s1.dropWhile isJsSpace).takeWhile (fun c => !(isQuote c))).reverse).dropWhile
            isJsSpace) with
      | none => none
      | some prer =>
        if preOkExp prer.reverse then
          match (s1.dropWhile isJsSpace).dropWhile (fun c => !(isQuote c)) with
          | q1 :: s4 =>
            if s4.takeWhile (fun c => !(isQuote c)) = [] then none
            else
              match s4.dropWhile (fun c => !(isQuote c)) with
              | q2 :: s6 =>
                match matchPost (s6.dropWhile isGapChar) with
                | some (post, rest) =>
                  some (⟨s1.takeWhile isJsSpace, prer.reverse,
                         ((((s1.dropWhile isJsSpace).takeWhile
                             (fun c => !(isQuote c))).reverse).takeWhile isJsSpace).reverse,
                         q1, s4.takeWhile (fun c => !(isQuote c)), q2,
                         s6.takeWhile isGapChar, post⟩, rest)
                | none => none
              | [] => none
          | [] => none
        else none

/-- Leftmost-match scan: try the matcher at every position, returning the
text before the first match, the match, and the text after it. -/
def scanWith {M : Type} (tryAt : List Char → Option (M × List Char)) :
    List Char → Option (List Char × M × List Char)
  | [] => none
  | c :: rest =>
    match tryAt (c :: rest) with
    | some (m, after) => some ([], m, after)
    | none =>
      match scanWith tryAt rest with
      | some (pfx, m, after) => some (c :: pfx, m, after)
      | none => none

/-- Fuelled global replacement: replace each successive leftmost match,
continuing after the replaced text, exactly as `String.replace` with a
global regex does. -/
def replaceFuel {M : Type} (tryAt : List Char → Option (M × List Char))
    (emit : M → List Char) : Nat → List Char → List Char
  | 0, s => s
  | Nat.succ n, s =>
    match scanWith tryAt s with
    | none => s
    | some (pfx, m, after) => pfx ++ emit m ++ replaceFuel tryAt emit n after

/-- Global replacement; `s.length` steps of fuel always suffice because
every match consumes at least one character. -/
def replaceAll {M : Type} (tryAt : List Char → Option (M × List Char))
    (emit : M → List Char) (s : List Char) : List Char :=
  replaceFuel tryAt emit s.length s

/-- The replacement text for an import match:
`import ${pre}'${resolvePath(filepath, url)}'${post}` (line 58). -/
def emitImport (r : Resolver) (filepath : List Char) (m : ImpMatch) : List Char :=
  "import ".data ++ m.pre ++ sglqs ++ resolvePath r filepath m.url ++ sglqs ++ m.post.text

/-- The replacement text for an export match:
`export ${pre} from '${resolvePath(filepath, url)}'${post}` (line 63). -/
def emitExport (r : Resolver) (filepath : List Char) (m : ExpMatch) : List Char :=
  "export ".data ++ m.pre ++ " from ".data ++ sglqs ++
    resolvePath r filepath m.url ++ sglqs ++ m.post.text

/-- The first `.replace` of `transformJs`: rewrite all import statements. -/
def replaceImports (r : Resolver) (filepath s : List Char) : List Char :=
  replaceAll tryImportAt (emitImport r filepath) s

/-- The second `.replace` of `transformJs`: rewrite all export-from statements. -/
def replaceExports (r : Resolver) (filepath s : List Char) : List Char :=
  replaceAll tryExportAt (emitExport r filepath) s

/-- `transformJs` from src/lib/index.js lines 53-65: the import replacement
runs first, the export replacement runs on its output. -/
def transformJs (r : Resolver) (filepath src : List Char) : List Char :=
  replaceExports r filepath (replaceImports r filepath src)

/-- The failure diagnostics `transformJs` emits, in match order: the import
pass logs over the original text, the export pass over the import pass's
output (mirroring the two sequential `.replace` calls). -/
def replaceLogFuel {M : Type} (tryAt : List Char → Option (M × List Char))
    (logOf : M → List (List Char)) : Nat → List Char → List (List Char)
  | 0, _ => []
  | Nat.succ n, s =>
    match scanWith tryAt s with
    | none => []
    | some (_, m, after) => logOf m ++ replaceLogFuel tryAt logOf n after

/-- Diagnostics of the whole transform. -/
def transformJsErrors (r : Resolver) (filepath src : List Char) : List (List Char) :=
  replaceLogFuel tryImportAt (fun m => resolveErrors r filepath m.url) src.length src ++
    replaceLogFuel tryExportAt (fun m => resolveErrors r filepath m.url)
      (replaceImports r filepath src).length (replaceImports r filepath src)

/-! ## The two middleware request handlers (src/lib/index.js lines 74-137 and 148-192)

The per-request behaviour of each middleware is modelled as a pure function
from a filesystem model, a MIME lookup, a resolver, the configuration and the
request to the response action taken.  `res.setHeader` plus `res.end` is
folded into the `serve` constructor. -/
/-- Model of the synchronous filesystem calls the handlers make:
`fs.existsSync`, `fs.lstatSync(..).isDirectory()` and `fs.readFileSync`. -/
structure FSModel where
  pathExists : List Char → Bool
  isDirectory : List Char → Bool
  readFile : List Char → List Char

/-- The observable outcome of one request: decline to the next handler,
redirect, or terminate with a content type and body. -/
inductive MwResult
  | nextHandler
  | redirect (location : List Char)
  | serve (contentType : List Char) (body : List Char)
deriving DecidableEq

/-- The default `indexFiles` argument of both factories. -/
def defaultIndexFiles : List (List Char) := ["index.html".data, "index.js".data]

/-- The shared tail of both handlers (lines 107-134 and 162-189): existence
check, directory redirect via the first existing index file, MIME lookup with
`application/octet-stream` fallback, and the JavaScript transform for
`text/javascript` / `application/javascript` content. -/
def serveResolved (fs : FSModel) (mimeGetType : List Char → Option (List Char))
    (r : Resolver) (indexFiles : List (List Char))
    (originalUrl resolvedPath : List Char) : MwResult :=
  if fs.pathExists resolvedPath then
    if fs.isDirectory resolvedPath then
      match indexFiles.find? (fun idx => fs.pathExists (pathJoin resolvedPath idx)) with
      | some idx => MwResult.redirect (pathJoin originalUrl idx)
      | none => MwResult.nextHandler
    else
      if startsWithCL "text/javascript".data
            ((mimeGetType resolvedPath).getD "application/octet-stream".data) ||
          startsWithCL "application/javascript".data
            ((mimeGetType resolvedPath).getD "application/octet-stream".data) then
        MwResult.serve ((mimeGetType resolvedPath).getD "application/octet-stream".data)
          (transformJs r resolvedPath (fs.readFile resolvedPath))
      else
        MwResult.serve ((mimeGetType resolvedPath).getD "application/octet-stream".data)
          (fs.readFile resolvedPath)
  else MwResult.nextHandler

/-- The path computation of the connect handler (src/lib/index.js lines
150-156): `/node_modules/` requests lose their leading slash, the result is
joined to `basePath` and `path.resolve`d against the working directory. -/
def middlewareResolvedPath (cwd basePath originalUrl : List Char) : List Char :=
  pathResolve cwd (pathJoin basePath
    (if startsWithCL "/node_modules/".data originalUrl then originalUrl.drop 1
     else originalUrl))

/-- The connect-style `middleware` handler (src/lib/index.js lines 148-192):
the request path is resolved via `middlewareResolvedPath`, then served via
the shared tail. -/
def middleware (fs : FSModel) (mimeGetType : List Char → Option (List Char))
    (r : Resolver) (cwd basePath : List Char) (indexFiles : List (List Char))
    (originalUrl : List Char) : MwResult :=
  if (middlewareResolvedPath cwd basePath originalUrl).length < 1 then
    MwResult.nextHandler
  else
    serveResolved fs mimeGetType r indexFiles originalUrl
      (middlewareResolvedPath cwd basePath originalUrl)

/-- The path computation of the Karma handler (src/lib/index.js lines 88-99):
`/base/` requests have the marker stripped and are joined to the configured
`basePath`; all other requests only lose their leading slash; either way the
outcome is `path.resolve`d against the process working directory. -/
def karmaResolvedPath (cwd basePath originalUrl : List Char) : List Char :=
  pathResolve cwd
    (if startsWithCL "/base/".data originalUrl then
      pathJoin basePath (originalUrl.drop 6)
     else originalUrl.drop 1)

/-- The Karma `EsModulesMiddlewareFactory` handler (src/lib/index.js lines
74-137): requests whose `req.url` starts with neither `/base/` nor
`/node_modules/` are declined; otherwise `req.originalUrl` is resolved via
`karmaResolvedPath` and served via the shared tail. -/
def EsModulesMiddlewareFactory (fs : FSModel)
    (mimeGetType : List Char → Option (List Char)) (r : Resolver)
    (cwd basePath : List Char) (indexFiles : List (List Char))
    (reqUrl originalUrl : List Char) : MwResult :=
  if !(startsWithCL "/base/".data reqUrl) && !(startsWithCL "/node_modules/".data reqUrl) then
    MwResult.nextHandler
  else
    if (karmaResolvedPath cwd basePath originalUrl).length < 1 then MwResult.nextHandler
    else
      serveResolved fs mimeGetType r indexFiles originalUrl
        (karmaResolvedPath cwd basePath originalUrl)

/-! ## The paths-table middleware constructor (spec §6, §7; README usage)

The repository's README documents `middleware({paths: {...}})` and the spec
describes its construction-time validation, but the source file holding that
variant is not under src/ (src/lib/index.js holds the superseded basePath
variant, whose `middleware(basePath, indexFiles)` performs no configuration
validation).  The constructor is therefore modelled from the spec. -/
/-- Configuration surface of the paths-table middleware: the required
`paths` property maps URL prefixes to filesystem roots; `none` models a
configuration object lacking the property. -/
structure EsmConfig where
  paths : Option (List (List Char × List Char))
deriving DecidableEq

/-- The construction-time failure of the paths-table middleware. -/
inductive ConfigFault
  | configurationError
deriving DecidableEq

/-- Modelled from the spec: construction of the paths-table middleware,
whose source is not under src/ (only the README documents it).  Per spec §6
"Absence of `paths` is a fatal configuration error at construction time,
reported immediately rather than deferred to first request": a config
without `paths` yields the error and no request handler is produced; with
`paths` present the immutable route table is built once. -/
def middlewareFromConfig (cfg : EsmConfig) :
    Except ConfigFault (List (List Char × List Char)) :=
  match cfg.paths with
  | none => Except.error ConfigFault.configurationError
  | some table => Except.ok table

/-! ## Concrete instances used to witness the theorems -/
/-- A resolver on which URL parsing and module resolution fail everywhere. -/
def failRes : Resolver := ⟨fun _ => false, fun _ _ => none⟩

/-- A resolver that recognises one absolute URL. -/
def urlRes : Resolver :=
  ⟨fun u => u = "https://cdn.example/mod.js".data, fun _ _ => none⟩

/-- A resolver that resolves the bare specifier `pkgh` from `/src` to the
dot-initial file `/src/.hidden.js`. -/
def hidRes : Resolver :=
  ⟨fun _ => false,
   fun d u =>
     if d = "/src".data ∧ u = "pkgh".data then some "/src/.hidden.js".data else none⟩

/-- A resolver that resolves the bare specifier `pkga` from `/src` to
`/src/lib/a.js`. -/
def relRes : Resolver :=
  ⟨fun _ => false,
   fun d u =>
     if d = "/src".data ∧ u = "pkga".data then some "/src/lib/a.js".data else none⟩

/-- A filesystem with a directory `/root/foo` containing `index.html`. -/
def fsDirA : FSModel :=
  ⟨fun p => p = "/root/foo".data || p = "/root/foo/index.html".data,
   fun p => p = "/root/foo".data,
   fun _ => []⟩

/-- A sample package whose metadata declares all three entry fields. -/
def pkgA : Pkg :=
  ⟨some "es/index.js".data, some "next/index.js".data, some "lib/index.js".data⟩

/-- The concrete import match of the witness text
`import a 'x';` (binding clause `a `, specifier `x`, semicolon trailer). -/
def impWitnessMatch : ImpMatch :=
  ⟨[' '], "a ".data, sglq, "x".data, sglq, [], PostTok.semi⟩

/-! ## Theorems -/

theorem dropLit_sound : ∀ (lit s r : List Char), dropLit lit s = some r → s = lit ++ r := by
  intro lit
  induction lit with
  | nil =>
    intro s r h
    simp only [dropLit, Option.some.injEq] at h
    simpa using h
  | cons c cs ih =>
    intro s r h
    cases s with
    | nil => simp [dropLit] at h
    | cons d ds =>
      by_cases hc : c = d
      · simp only [dropLit, if_pos hc] at h
        subst hc
        simpa using ih ds r h
      · simp [dropLit, hc] at h

theorem dropLit_append : ∀ (lit t : List Char), dropLit lit (lit ++ t) = some t := by
  intro lit
  induction lit with
  | nil => intro t; rfl
  | cons c cs ih => intro t; simp [dropLit, ih]

theorem startsWithCL_iff (pfx s : List Char) :
    startsWithCL pfx s = true ↔ ∃ t, s = pfx ++ t := by
  constructor
  · intro h
    unfold startsWithCL at h
    cases hd : dropLit pfx s with
    | none => rw [hd] at h; simp [Option.isSome] at h
    | some r => exact ⟨r, dropLit_sound pfx s r hd⟩
  · rintro ⟨t, rfl⟩
    unfold startsWithCL
    rw [dropLit_append]
    rfl

/-- Elements of `takeWhile` satisfy the predicate. -/
theorem mem_takeWhile_sat {p : Char → Bool} : ∀ {l : List Char} {c : Char},
    c ∈ l.takeWhile p → p c = true := by
  intro l
  induction l with
  | nil => intro c h; simp [List.takeWhile] at h
  | cons d ds ih =>
    intro c h
    by_cases hp : p d
    · rw [List.takeWhile_cons_of_pos hp] at h
      rcases List.mem_cons.mp h with h' | h'
      · subst h'; exact hp
      · exact ih h'
    · rw [List.takeWhile_cons_of_neg hp] at h
      simp at h

/-- The head of `dropWhile` falsifies the predicate. -/
theorem dropWhile_head_false {p : Char → Bool} : ∀ {l t : List Char} {c : Char},
    l.dropWhile p = c :: t → p c = false := by
  intro l
  induction l with
  | nil => intro t c h; simp [List.dropWhile] at h
  | cons d ds ih =>
    intro t c h
    by_cases hp : p d
    · rw [List.dropWhile_cons_of_pos hp] at h
      exact ih h
    · rw [List.dropWhile_cons_of_neg hp] at h
      cases h
      simpa using hp

/-! ## Soundness of the scanner: every reported match decomposes the input -/
theorem matchPost_sound : ∀ (s : List Char) (post : PostTok) (rest : List Char),
    matchPost s = some (post, rest) → s = post.text ++ rest := by
  intro s post rest h
  cases s with
  | nil =>
    simp only [matchPost, Option.some.injEq, Prod.mk.injEq] at h
    obtain ⟨rfl, rfl⟩ := h
    rfl
  | cons c r =>
    simp only [matchPost] at h
    split at h
    next =>
      simp only [Option.some.injEq, Prod.mk.injEq] at h
      obtain ⟨rfl, rfl⟩ := h
      rfl
    next =>
      split at h
      next hsemi =>
        simp only [Option.some.injEq, Prod.mk.injEq] at h
        obtain ⟨rfl, rfl⟩ := h
        simp [PostTok.text, hsemi]
      next =>
        split at h
        next hsl =>
          split at h
          · rename_i r2 heq
            simp only [Option.some.injEq, Prod.mk.injEq] at h
            obtain ⟨rfl, rfl⟩ := h
            subst hsl
            rfl
          · rename_i r2 heq
            simp only [Option.some.injEq, Prod.mk.injEq] at h
            obtain ⟨rfl, rfl⟩ := h
            subst hsl
            rfl
          · simp at h
        next => simp at h

theorem tryImportAt_sound (s : List Char) (m : ImpMatch) (after : List Char)
    (h : tryImportAt s = some (m, after)) :
    s = impMatchText m ++ after ∧
    (m.ws ≠ [] ∧ ∀ c ∈ m.ws, isJsSpace c = true) ∧
    (preOkImp m.pre = true ∧ ∀ c ∈ m.pre, isQuote c = false) ∧
    isQuote m.q1 = true ∧
    (m.url ≠ [] ∧ ∀ c ∈ m.url, isQuote c = false) ∧
    isQuote m.q2 = true ∧
    (∀ c ∈ m.gap, isGapChar c = true) := by
  unfold tryImportAt at h
  split at h
  next => simp at h
  next s1 hdrop =>
    split at h
    next => simp at h
    next hws =>
      split at h
      next hpre =>
        split at h
        next q1 s4 hdw1 =>
          split at h
          next => simp at h
          next hurl =>
            split at h
            next q2 s6 hdw2 =>
              split at h
              next post rest hmp =>
                simp only [Option.some.injEq, Prod.mk.injEq] at h
                obtain ⟨rfl, rfl⟩ := h
                have e1 := dropLit_sound _ _ _ hdrop
                have d2 : (s1.dropWhile isJsSpace) =
                    ((s1.dropWhile isJsSpace).takeWhile (fun c => !(isQuote c))) ++ (q1 :: s4) := by
                  rw [← hdw1]
                  exact (List.takeWhile_append_dropWhile _ _).symm
                have d3 : s4 = (s4.takeWhile (fun c => !(isQuote c))) ++ (q2 :: s6) := by
                  rw [← hdw2]
                  exact (List.takeWhile_append_dropWhile _ _).symm
                have d4 : s6 = (s6.takeWhile isGapChar) ++ (PostTok.text post ++ rest) := by
                  rw [← matchPost_sound _ _ _ hmp]
                  exact (List.takeWhile_append_dropWhile _ _).symm
                refine ⟨?_, ⟨hws, fun c hc => mem_takeWhile_sat hc⟩,
                        ⟨hpre, fun c hc => by simpa using mem_takeWhile_sat hc⟩,
                        by simpa using dropWhile_head_false hdw1,
                        ⟨hurl, fun c hc => by simpa using mem_takeWhile_sat hc⟩,
                        by simpa using dropWhile_head_false hdw2,
                        fun c hc => mem_takeWhile_sat hc⟩
                simp only [impMatchText, List.append_assoc, List.cons_append]
                rw [← d4, ← d3, ← d2]
                rw [List.takeWhile_append_dropWhile]
                exact e1
              next => simp at h
            next => simp at h
        next => simp at h
      next => simp at h

theorem tryExportAt_sound (s : List Char) (m : ExpMatch) (after : List Char)
    (h : tryExportAt s = some (m, after)) :
    s = expMatchText m ++ after ∧
    (m.ws ≠ [] ∧ ∀ c ∈ m.ws, isJsSpace c = true) ∧
    (preOkExp m.pre = true ∧ ∀ c ∈ m.pre, isQuote c = false) ∧
    (∀ c ∈ m.ws2, isJsSpace c = true) ∧
    isQuote m.q1 = true ∧
    (m.url ≠ [] ∧ ∀ c ∈ m.url, isQuote c = false) ∧
    isQuote m.q2 = true ∧
    (∀ c ∈ m.gap, isGapChar c = true) := by
  unfold tryExportAt at h
  split at h
  next => simp at h
  next s1 hdrop =>
    split at h
    next => simp at h
    next hws =>
      split at h
      next => simp at h
      next prer hdropm =>
        split at h
        next hpre =>
          split at h
          next q1 s4 hdw1 =>
            split at h
            next => simp at h
            next hurl =>
              split at h
              next q2 s6 hdw2 =>
                split at h
                next post rest hmp =>
                  simp only [Option.some.injEq, Prod.mk.injEq] at h
                  obtain ⟨rfl, rfl⟩ := h
                  have e1 := dropLit_sound _ _ _ hdrop
                  have hmf : ("morf".data).reverse = "from".data := by decide
                  have hbr : (((s1.dropWhile isJsSpace).takeWhile
                        (fun c => !(isQuote c))).reverse) =
                      ((((s1.dropWhile isJsSpace).takeWhile
                        (fun c => !(isQuote c))).reverse).takeWhile isJsSpace) ++
                        ("morf".data ++ prer) := by
                    rw [← dropLit_sound _ _ _ hdropm]
                    exact (List.takeWhile_append_dropWhile _ _).symm
                  have hbody : ((s1.dropWhile isJsSpace).takeWhile (fun c => !(isQuote c))) =
                      prer.reverse ++ ("from".data ++
                        ((((s1.dropWhile isJsSpace).takeWhile
                          (fun c => !(isQuote c))).reverse).takeWhile isJsSpace).reverse) := by
                    have h2 : ((s1.dropWhile isJsSpace).takeWhile (fun c => !(isQuote c))) =
                        (((s1.dropWhile isJsSpace).takeWhile
                          (fun c => !(isQuote c))).reverse).reverse :=
                      (List.reverse_reverse _).symm
                    rw [hbr] at h2
                    rw [List.reverse_append, List.reverse_append, hmf,
                      List.append_assoc] at h2
                    exact h2
                  have d2 : (s1.dropWhile isJsSpace) =
                      ((s1.dropWhile isJsSpace).takeWhile (fun c => !(isQuote c))) ++
                        (q1 :: s4) := by
                    rw [← hdw1]
                    exact (List.takeWhile_append_dropWhile _ _).symm
                  have d3 : s4 = (s4.takeWhile (fun c => !(isQuote c))) ++ (q2 :: s6) := by
                    rw [← hdw2]
                    exact (List.takeWhile_append_dropWhile _ _).symm
                  have d4 : s6 = (s6.takeWhile isGapChar) ++ (PostTok.text post ++ rest) := by
                    rw [← matchPost_sound _ _ _ hmp]
                    exact (List.takeWhile_append_dropWhile _ _).symm
                  have d1 : s1 = (s1.takeWhile isJsSpace) ++ (s1.dropWhile isJsSpace) :=
                    (List.takeWhile_append_dropWhile _ _).symm
                  rw [d2] at d1
                  rw [hbody] at d1
                  rw [d3] at d1
                  rw [d4] at d1
                  rw [d1] at e1
                  refine ⟨?_, ⟨hws, fun c hc => mem_takeWhile_sat hc⟩,
                          ⟨hpre, ?_⟩,
                          fun c hc => mem_takeWhile_sat (List.mem_reverse.mp hc),
                          by simpa using dropWhile_head_false hdw1,
                          ⟨hurl, fun c hc => by simpa using mem_takeWhile_sat hc⟩,
                          by simpa using dropWhile_head_false hdw2,
                          fun c hc => mem_takeWhile_sat hc⟩
                  · rw [e1]
                    simp [expMatchText, List.append_assoc, List.cons_append]
                  · intro c hc
                    have hcb : c ∈ ((s1.dropWhile isJsSpace).takeWhile
                        (fun c => !(isQuote c))) := by
                      rw [hbody]
                      exact List.mem_append.mpr (Or.inl hc)
                    simpa using mem_takeWhile_sat hcb
                next => simp at h
              next => simp at h
          next => simp at h
        next => simp at h

theorem scanWith_sound {M : Type} (tryAt : List Char → Option (M × List Char))
    (text : M → List Char)
    (htry : ∀ s m after, tryAt s = some (m, after) → s = text m ++ after) :
    ∀ (s pfx : List Char) (m : M) (after : List Char),
      scanWith tryAt s = some (pfx, m, after) → s = pfx ++ text m ++ after := by
  intro s
  induction s with
  | nil => intro pfx m after h; simp [scanWith] at h
  | cons c rest ih =>
    intro pfx m after h
    unfold scanWith at h
    split at h
    next m' after' htr =>
      simp only [Option.some.injEq, Prod.mk.injEq] at h
      obtain ⟨rfl, rfl, rfl⟩ := h
      simpa using htry _ _ _ htr
    next =>
      split at h
      next pfx' m' after' hscan =>
        simp only [Option.some.injEq, Prod.mk.injEq] at h
        obtain ⟨rfl, rfl, rfl⟩ := h
        simpa using ih _ _ _ hscan
      next => simp at h

theorem scanWith_after_lt {M : Type} (tryAt : List Char → Option (M × List Char))
    (text : M → List Char)
    (htry : ∀ s m after, tryAt s = some (m, after) → s = text m ++ after)
    (htext : ∀ m, text m ≠ []) :
    ∀ (s pfx : List Char) (m : M) (after : List Char),
      scanWith tryAt s = some (pfx, m, after) → after.length < s.length := by
  intro s pfx m after h
  have hs := scanWith_sound tryAt text htry s pfx m after h
  rw [hs]
  simp only [List.length_append]
  have : 0 < (text m).length := List.length_pos.mpr (htext m)
  omega

theorem replaceFuel_irrel {M : Type} (tryAt : List Char → Option (M × List Char))
    (emit : M → List Char) (text : M → List Char)
    (htry : ∀ s m after, tryAt s = some (m, after) → s = text m ++ after)
    (htext : ∀ m, text m ≠ []) :
    ∀ (n1 n2 : Nat) (s : List Char), s.length ≤ n1 → s.length ≤ n2 →
      replaceFuel tryAt emit n1 s = replaceFuel tryAt emit n2 s := by
  intro n1
  induction n1 with
  | zero =>
    intro n2 s h1 h2
    have : s = [] := List.eq_nil_of_length_eq_zero (Nat.le_zero.mp h1)
    subst this
    cases n2 with
    | zero => rfl
    | succ k => simp [replaceFuel, scanWith]
  | succ n ih =>
    intro n2 s h1 h2
    cases n2 with
    | zero =>
      have : s = [] := List.eq_nil_of_length_eq_zero (Nat.le_zero.mp h2)
      subst this
      simp [replaceFuel, scanWith]
    | succ k =>
      cases hscan : scanWith tryAt s with
      | none => simp only [replaceFuel, hscan]
      | some pma =>
        obtain ⟨pfx, m, after⟩ := pma
        have hlt := scanWith_after_lt tryAt text htry htext s pfx m after hscan
        have ha1 : after.length ≤ n := by omega
        have ha2 : after.length ≤ k := by omega
        simp only [replaceFuel, hscan]
        rw [ih k after ha1 ha2]

theorem replaceAll_eq_match {M : Type} (tryAt : List Char → Option (M × List Char))
    (emit : M → List Char) (text : M → List Char)
    (htry : ∀ s m after, tryAt s = some (m, after) → s = text m ++ after)
    (htext : ∀ m, text m ≠ [])
    (s pfx : List Char) (m : M) (after : List Char)
    (hscan : scanWith tryAt s = some (pfx, m, after)) :
    replaceAll tryAt emit s = pfx ++ emit m ++ replaceAll tryAt emit after := by
  have hlt := scanWith_after_lt tryAt text htry htext s pfx m after hscan
  unfold replaceAll
  cases hn : s.length with
  | zero =>
    exfalso
    omega
  | succ k =>
    simp only [replaceFuel, hscan]
    have hk : after.length ≤ k := by omega
    rw [replaceFuel_irrel tryAt emit text htry htext k after.length after hk (Nat.le_refl _)]

theorem replaceAll_eq_nomatch {M : Type} (tryAt : List Char → Option (M × List Char))
    (emit : M → List Char) (s : List Char)
    (hscan : scanWith tryAt s = none) :
    replaceAll tryAt emit s = s := by
  unfold replaceAll
  cases hn : s.length with
  | zero => rfl
  | succ k => simp [replaceFuel, hscan]

theorem impMatchText_ne_nil (m : ImpMatch) : impMatchText m ≠ [] := by
  simp [impMatchText]

theorem expMatchText_ne_nil (m : ExpMatch) : expMatchText m ≠ [] := by
  simp [expMatchText]

theorem tryImportAt_text (s : List Char) (m : ImpMatch) (after : List Char)
    (h : tryImportAt s = some (m, after)) : s = impMatchText m ++ after :=
  (tryImportAt_sound s m after h).1

theorem tryExportAt_text (s : List Char) (m : ExpMatch) (after : List Char)
    (h : tryExportAt s = some (m, after)) : s = expMatchText m ++ after :=
  (tryExportAt_sound s m after h).1

theorem replaceImports_eq_match (r : Resolver) (fp s pfx : List Char) (m : ImpMatch)
    (after : List Char) (hscan : scanWith tryImportAt s = some (pfx, m, after)) :
    replaceImports r fp s = pfx ++ emitImport r fp m ++ replaceImports r fp after :=
  replaceAll_eq_match tryImportAt (emitImport r fp) impMatchText
    tryImportAt_text impMatchText_ne_nil s pfx m after hscan

theorem replaceImports_eq_nomatch (r : Resolver) (fp s : List Char)
    (hscan : scanWith tryImportAt s = none) : replaceImports r fp s = s :=
  replaceAll_eq_nomatch tryImportAt (emitImport r fp) s hscan

theorem replaceExports_eq_match (r : Resolver) (fp s pfx : List Char) (m : ExpMatch)
    (after : List Char) (hscan : scanWith tryExportAt s = some (pfx, m, after)) :
    replaceExports r fp s = pfx ++ emitExport r fp m ++ replaceExports r fp after :=
  replaceAll_eq_match tryExportAt (emitExport r fp) expMatchText
    tryExportAt_text expMatchText_ne_nil s pfx m after hscan

theorem replaceExports_eq_nomatch (r : Resolver) (fp s : List Char)
    (hscan : scanWith tryExportAt s = none) : replaceExports r fp s = s :=
  replaceAll_eq_nomatch tryExportAt (emitExport r fp) s hscan

theorem scanWith_imp_decomp (s pfx : List Char) (m : ImpMatch) (after : List Char)
    (h : scanWith tryImportAt s = some (pfx, m, after)) :
    s = pfx ++ impMatchText m ++ after :=
  scanWith_sound tryImportAt impMatchText tryImportAt_text s pfx m after h

theorem scanWith_exp_decomp (s pfx : List Char) (m : ExpMatch) (after : List Char)
    (h : scanWith tryExportAt s = some (pfx, m, after)) :
    s = pfx ++ expMatchText m ++ after :=
  scanWith_sound tryExportAt expMatchText tryExportAt_text s pfx m after h

/-! ## Auxiliary facts about the path model -/
theorem joinSegsAbs_ne_nil (b : Bool) (segs : List (List Char)) :
    joinSegsAbs b segs ≠ [] := by
  unfold joinSegsAbs
  split
  · simp
  · split
    · simp
    · assumption

theorem pathResolve_ne_nil (cwd p : List Char) : pathResolve cwd p ≠ [] := by
  unfold pathResolve normalizePath
  split
  · exact joinSegsAbs_ne_nil _ _
  · exact joinSegsAbs_ne_nil _ _

theorem middlewareResolvedPath_ne_nil (cwd bp ou : List Char) :
    middlewareResolvedPath cwd bp ou ≠ [] := by
  unfold middlewareResolvedPath
  exact pathResolve_ne_nil _ _

theorem karmaResolvedPath_ne_nil (cwd bp ou : List Char) :
    karmaResolvedPath cwd bp ou ≠ [] := by
  unfold karmaResolvedPath
  exact pathResolve_ne_nil _ _

/-- A successful scan contains a successful matcher application at the match
position (used to transport the matcher's capture invariants to the scan). -/
theorem scanWith_tryAt {M : Type} (tryAt : List Char → Option (M × List Char)) :
    ∀ (s pfx : List Char) (m : M) (after : List Char),
      scanWith tryAt s = some (pfx, m, after) → ∃ t, tryAt t = some (m, after) := by
  intro s
  induction s with
  | nil => intro pfx m after h; simp [scanWith] at h
  | cons c rest ih =>
    intro pfx m after h
    unfold scanWith at h
    split at h
    next m' after' htr =>
      simp only [Option.some.injEq, Prod.mk.injEq] at h
      obtain ⟨rfl, rfl, rfl⟩ := h
      exact ⟨c :: rest, htr⟩
    next =>
      split at h
      next pfx' m' after' hscan =>
        simp only [Option.some.injEq, Prod.mk.injEq] at h
        obtain ⟨rfl, rfl, rfl⟩ := h
        exact ih _ _ _ hscan
      next => simp at h

/-! ## Claim theorems -/
/-- C1: a specifier that parses as an absolute URL is returned unchanged by
`resolvePath`, so the rewrite embeds such a specifier byte-identically in the
replacement it emits for the matched statement. -/
theorem c1_absolute_url_unchanged :
    (∀ (r : Resolver) (fp url : List Char), r.isURL url = true →
      resolvePath r fp url = url) ∧
    (∀ (r : Resolver) (fp : List Char) (m : ImpMatch), r.isURL m.url = true →
      emitImport r fp m =
        "import ".data ++ m.pre ++ sglqs ++ m.url ++ sglqs ++ m.post.text) := by
  constructor
  · intro r fp url h
    simp [resolvePath, h]
  · intro r fp m h
    simp [emitImport, resolvePath, h]

/-- C1 witness: the theorem applied to a concrete URL specifier. -/
theorem c1_witness :
    urlRes.isURL "https://cdn.example/mod.js".data = true ∧
    resolvePath urlRes "/src/app.js".data "https://cdn.example/mod.js".data =
      "https://cdn.example/mod.js".data :=
  ⟨by decide,
   c1_absolute_url_unchanged.1 urlRes "/src/app.js".data
     "https://cdn.example/mod.js".data (by decide)⟩

/-- C2 counterexample: resolution can land on a dot-initial file name, whose
relative path starts with `.` but with neither `./` nor `../`; the code then
returns it unchanged, refuting the claim that every successfully resolved
specifier begins with `./` or `../`. -/
theorem c2_counterexample :
    resolvePath hidRes "/src/app.js".data "pkgh".data = ".hidden.js".data ∧
    startsWithCL "./".data (resolvePath hidRes "/src/app.js".data "pkgh".data) = false ∧
    startsWithCL "../".data (resolvePath hidRes "/src/app.js".data "pkgh".data) = false := by
  decide

/-- C2 (amended): on successful resolution of a non-URL specifier the result
is the resolution target re-expressed relative to the directory containing
the source file, and it begins with `.` (`./` is prepended exactly when the
computed relative path does not already begin with `.`); in particular it is
never absolute. -/
theorem c2_relative_dot_prefixed (r : Resolver) (fp url res : List Char)
    (hu : r.isURL url = false) (hres : r.resolveSync (dirname fp) url = some res) :
    resolvePath r fp url = dotSlash (pathRelative (dirname fp) res) ∧
    (resolvePath r fp url).head? = some '.' := by
  constructor
  · simp [resolvePath, hu, hres]
  · simp only [resolvePath, hu, Bool.false_eq_true, if_false, hres]
    unfold dotSlash
    split
    next hsw =>
      rcases (startsWithCL_iff _ _).mp hsw with ⟨t, ht⟩
      rw [ht]
      rfl
    next => rfl

/-- C2 witness: the amended theorem applied to a concrete resolution. -/
theorem c2_witness :
    relRes.isURL "pkga".data = false ∧
    relRes.resolveSync (dirname "/src/app.js".data) "pkga".data =
      some "/src/lib/a.js".data ∧
    (resolvePath relRes "/src/app.js".data "pkga".data =
      dotSlash (pathRelative (dirname "/src/app.js".data) "/src/lib/a.js".data) ∧
     (resolvePath relRes "/src/app.js".data "pkga".data).head? = some '.') :=
  ⟨by decide, by decide,
   c2_relative_dot_prefixed relRes "/src/app.js".data "pkga".data
     "/src/lib/a.js".data (by decide) (by decide)⟩

/-- C3: a failed resolution is non-fatal: `resolvePath` returns the original
specifier, the failure is logged with a message ending in the specifier, and
in the rewrite the matched statement keeps its specifier verbatim while the
text before the match and the processing of the rest of the file are exactly
as for any other input. -/
theorem c3_resolution_failure_nonfatal :
    (∀ (r : Resolver) (fp url : List Char), r.isURL url = false →
      r.resolveSync (dirname fp) url = none →
      resolvePath r fp url = url ∧
      ∃ msg, resolveErrors r fp url = [msg] ∧ url <:+ msg) ∧
    (∀ (r : Resolver) (fp s pfx : List Char) (m : ImpMatch) (after : List Char),
      scanWith tryImportAt s = some (pfx, m, after) →
      r.isURL m.url = false → r.resolveSync (dirname fp) m.url = none →
      s = pfx ++ impMatchText m ++ after ∧
      replaceImports r fp s =
        pfx ++ ("import ".data ++ m.pre ++ sglqs ++ m.url ++ sglqs ++ m.post.text) ++
          replaceImports r fp after) := by
  constructor
  · intro r fp url hu hn
    refine ⟨by simp [resolvePath, hu, hn], ?_⟩
    refine ⟨"Failed to resolve module ".data ++ url, by simp [resolveErrors, hu, hn], ?_⟩
    exact ⟨"Failed to resolve module ".data, rfl⟩
  · intro r fp s pfx m after hscan hu hn
    refine ⟨scanWith_imp_decomp s pfx m after hscan, ?_⟩
    rw [replaceImports_eq_match r fp s pfx m after hscan]
    simp [emitImport, resolvePath, hu, hn]

/-- C3 witness: the theorem applied to a concrete failing specifier. -/
theorem c3_witness :
    failRes.isURL "nonexistent-package".data = false ∧
    failRes.resolveSync (dirname "/a/b.js".data) "nonexistent-package".data = none ∧
    (resolvePath failRes "/a/b.js".data "nonexistent-package".data =
       "nonexistent-package".data ∧
     ∃ msg, resolveErrors failRes "/a/b.js".data "nonexistent-package".data = [msg] ∧
       "nonexistent-package".data <:+ msg) :=
  ⟨by decide, by decide,
   c3_resolution_failure_nonfatal.1 failRes "/a/b.js".data "nonexistent-package".data
     (by decide) (by decide)⟩

/-- C4: the `packageFilter` overwrites `main` with the first JavaScript-truthy
field among `module`, `jsnext:main` and `main`, in that order, and changes
nothing else — so when no override field is present the metadata is passed
through for the library's default file-resolution rules. -/
theorem c4_entry_field_preference :
    (∀ pkg : Pkg, truthyField pkg.module = true →
      (packageFilter pkg).main = pkg.module) ∧
    (∀ pkg : Pkg, truthyField pkg.module = false → truthyField pkg.jsnextMain = true →
      (packageFilter pkg).main = pkg.jsnextMain) ∧
    (∀ pkg : Pkg, truthyField pkg.module = false → truthyField pkg.jsnextMain = false →
      (packageFilter pkg).main = pkg.main) ∧
    (∀ pkg : Pkg, (packageFilter pkg).module = pkg.module ∧
      (packageFilter pkg).jsnextMain = pkg.jsnextMain) := by
  refine ⟨?_, ?_, ?_, fun pkg => ⟨rfl, rfl⟩⟩
  · intro pkg h
    simp [packageFilter, h]
  · intro pkg h1 h2
    simp [packageFilter, h1, h2]
  · intro pkg h1 h2
    simp [packageFilter, h1, h2]

/-- C4 witness: the theorem applied to a package declaring all three fields. -/
theorem c4_witness :
    truthyField pkgA.module = true ∧ (packageFilter pkgA).main = pkgA.module :=
  ⟨by decide, c4_entry_field_preference.1 pkgA (by decide)⟩

/-- C9: the per-specifier resolution step is total: every exception path is
caught, so the result is always either the original specifier (URL case, or
any resolution failure) or the successfully resolved relative path — never
an error state; consequently the transform is defined on all inputs. -/
theorem c9_resolve_total (r : Resolver) (fp url : List Char) :
    resolvePath r fp url = url ∨
    ∃ res, r.resolveSync (dirname fp) url = some res ∧ r.isURL url = false ∧
      resolvePath r fp url = dotSlash (pathRelative (dirname fp) res) := by
  by_cases hu : r.isURL url = true
  · left
    simp [resolvePath, hu]
  · have hu' : r.isURL url = false := by simpa using hu
    cases hres : r.resolveSync (dirname fp) url with
    | none =>
      left
      simp [resolvePath, hu', hres]
    | some res =>
      right
      exact ⟨res, rfl, hu', by simp [resolvePath, hu', hres]⟩

/-- C5 fails on the code: `transformJs` is not idempotent.  On
`export {a} from "y";` (where the specifier resolves to itself — resolution
fails, so the text `y` is kept) the first application produces two spaces
before `from` — the greedy binding capture `{a} ` keeps its trailing space
and the replacement template `export ${pre} from '...'` inserts another —
and the second application produces three. -/
theorem c5_not_idempotent :
    transformJs failRes "/a/b.js".data "export {a} from \"y\";".data =
      ("export {a}  from ".data ++ sglqs ++ "y".data ++ sglqs ++ ";".data) ∧
    transformJs failRes "/a/b.js".data
        (transformJs failRes "/a/b.js".data "export {a} from \"y\";".data) ≠
      transformJs failRes "/a/b.js".data "export {a} from \"y\";".data := by
  decide

/-- C6 counterexample: an import statement already in output form except for
a doubled space after the keyword; its specifier and quotes are unchanged by
the rewrite, yet the output differs from the input — the whitespace after
`import` is collapsed — refuting the claim that only the specifier substring
and the quote delimiters change. -/
theorem c6_counterexample :
    transformJs failRes "/a/b.js".data
        ("import  x ".data ++ sglqs ++ "./y".data ++ sglqs ++ ";".data) =
      ("import x ".data ++ sglqs ++ "./y".data ++ sglqs ++ ";".data) ∧
    ("import  x ".data ++ sglqs ++ "./y".data ++ sglqs ++ ";".data) ≠
      ("import x ".data ++ sglqs ++ "./y".data ++ sglqs ++ ";".data) := by
  decide

/-- C6 (amended): each matched statement is re-emitted with its captured
binding clause and captured trailing token verbatim, its specifier passed
through `resolvePath`, and its quote delimiters normalized to single quotes;
the text before the match is unchanged and the rest of the text is processed
independently; what is additionally normalized is only matched whitespace —
the `\s+` run after the keyword (re-emitted as one space) and, for exports,
the `\s*` runs around `from` (re-emitted as single spaces).  Unmatched text
is returned unchanged. -/
theorem c6_frame :
    (∀ (r : Resolver) (fp s pfx : List Char) (m : ImpMatch) (after : List Char),
      scanWith tryImportAt s = some (pfx, m, after) →
      s = pfx ++ ("import".data ++ m.ws ++ m.pre ++
            m.q1 :: (m.url ++ m.q2 :: (m.gap ++ m.post.text))) ++ after ∧
      replaceImports r fp s =
        pfx ++ ("import ".data ++ m.pre ++ sglqs ++ resolvePath r fp m.url ++ sglqs ++
          m.post.text) ++ replaceImports r fp after ∧
      (∀ c ∈ m.ws, isJsSpace c = true) ∧ isQuote m.q1 = true ∧ isQuote m.q2 = true ∧
      (∀ c ∈ m.gap, isGapChar c = true)) ∧
    (∀ (r : Resolver) (fp s pfx : List Char) (m : ExpMatch) (after : List Char),
      scanWith tryExportAt s = some (pfx, m, after) →
      s = pfx ++ ("export".data ++ m.ws ++ m.pre ++ "from".data ++ m.ws2 ++
            m.q1 :: (m.url ++ m.q2 :: (m.gap ++ m.post.text))) ++ after ∧
      replaceExports r fp s =
        pfx ++ ("export ".data ++ m.pre ++ " from ".data ++ sglqs ++
          resolvePath r fp m.url ++ sglqs ++ m.post.text) ++ replaceExports r fp after ∧
      (∀ c ∈ m.ws, isJsSpace c = true) ∧ (∀ c ∈ m.ws2, isJsSpace c = true) ∧
      isQuote m.q1 = true ∧ isQuote m.q2 = true ∧
      (∀ c ∈ m.gap, isGapChar c = true)) ∧
    (∀ (r : Resolver) (fp s : List Char), scanWith tryImportAt s = none →
      replaceImports r fp s = s) ∧
    (∀ (r : Resolver) (fp s : List Char), scanWith tryExportAt s = none →
      replaceExports r fp s = s) := by
  refine ⟨?_, ?_, replaceImports_eq_nomatch, replaceExports_eq_nomatch⟩
  · intro r fp s pfx m after hscan
    obtain ⟨t, ht⟩ := scanWith_tryAt tryImportAt s pfx m after hscan
    have hm := tryImportAt_sound t m after ht
    refine ⟨scanWith_imp_decomp s pfx m after hscan,
            replaceImports_eq_match r fp s pfx m after hscan,
            hm.2.1.2, hm.2.2.2.1, hm.2.2.2.2.2.1, hm.2.2.2.2.2.2⟩
  · intro r fp s pfx m after hscan
    obtain ⟨t, ht⟩ := scanWith_tryAt tryExportAt s pfx m after hscan
    have hm := tryExportAt_sound t m after ht
    refine ⟨scanWith_exp_decomp s pfx m after hscan,
            replaceExports_eq_match r fp s pfx m after hscan,
            hm.2.1.2, hm.2.2.2.1, hm.2.2.2.2.1, hm.2.2.2.2.2.2.1,
            hm.2.2.2.2.2.2.2⟩

/-- C6 witness: the frame theorem applied to the concrete single-statement
text `import a 'x';`. -/
theorem c6_witness :
    scanWith tryImportAt ("import a ".data ++ sglqs ++ "x".data ++ sglqs ++ ";".data) =
      some ([], impWitnessMatch, []) ∧
    (("import a ".data ++ sglqs ++ "x".data ++ sglqs ++ ";".data) =
      [] ++ ("import".data ++ impWitnessMatch.ws ++ impWitnessMatch.pre ++
        impWitnessMatch.q1 :: (impWitnessMatch.url ++ impWitnessMatch.q2 ::
          (impWitnessMatch.gap ++ impWitnessMatch.post.text))) ++ [] ∧
     replaceImports failRes "/a/b.js".data
         ("import a ".data ++ sglqs ++ "x".data ++ sglqs ++ ";".data) =
       [] ++ ("import ".data ++ impWitnessMatch.pre ++ sglqs ++
         resolvePath failRes "/a/b.js".data impWitnessMatch.url ++ sglqs ++
         impWitnessMatch.post.text) ++
         replaceImports failRes "/a/b.js".data [] ∧
     (∀ c ∈ impWitnessMatch.ws, isJsSpace c = true) ∧
     isQuote impWitnessMatch.q1 = true ∧ isQuote impWitnessMatch.q2 = true ∧
     (∀ c ∈ impWitnessMatch.gap, isGapChar c = true)) :=
  ⟨by decide,
   c6_frame.1 failRes "/a/b.js".data
     ("import a ".data ++ sglqs ++ "x".data ++ sglqs ++ ";".data)
     [] impWitnessMatch [] (by decide)⟩

/-- C7 counterexample: a request mapping to an existing directory that
contains `index.html` is answered with a redirect, not by declining to the
next handler as the claim states. -/
theorem c7_counterexample :
    middleware fsDirA (fun _ => none) failRes "/cwd".data "/root".data
      defaultIndexFiles "/foo".data = MwResult.redirect "/foo/index.html".data ∧
    middleware fsDirA (fun _ => none) failRes "/cwd".data "/root".data
      defaultIndexFiles "/foo".data ≠ MwResult.nextHandler := by
  decide

/-- C7 (amended): a path that maps to an existing directory is never served
as a file: the handler redirects to the first configured index file that
exists inside the directory and declines to the next handler when none does;
a path that does not exist is declined as well — the handlers never build a
not-found response (the result type has no such outcome).  Both the connect
handler and the Karma handler (under its `/base/`-or-`/node_modules/` guard)
behave this way. -/
theorem c7_directory_never_served :
    (∀ (fs : FSModel) (mg : List Char → Option (List Char)) (r : Resolver)
       (cwd bp : List Char) (idx : List (List Char)) (ou : List Char),
      (fs.isDirectory (middlewareResolvedPath cwd bp ou) = true →
        ∀ ct body, middleware fs mg r cwd bp idx ou ≠ MwResult.serve ct body) ∧
      (fs.pathExists (middlewareResolvedPath cwd bp ou) = true →
       fs.isDirectory (middlewareResolvedPath cwd bp ou) = true →
       ∀ i, idx.find?
           (fun f => fs.pathExists (pathJoin (middlewareResolvedPath cwd bp ou) f)) =
           some i →
         middleware fs mg r cwd bp idx ou = MwResult.redirect (pathJoin ou i)) ∧
      (fs.pathExists (middlewareResolvedPath cwd bp ou) = true →
       fs.isDirectory (middlewareResolvedPath cwd bp ou) = true →
       idx.find?
           (fun f => fs.pathExists (pathJoin (middlewareResolvedPath cwd bp ou) f)) =
           none →
         middleware fs mg r cwd bp idx ou = MwResult.nextHandler) ∧
      (fs.pathExists (middlewareResolvedPath cwd bp ou) = false →
         middleware fs mg r cwd bp idx ou = MwResult.nextHandler)) ∧
    (∀ (fs : FSModel) (mg : List Char → Option (List Char)) (r : Resolver)
       (cwd bp : List Char) (idx : List (List Char)) (u ou : List Char),
      (!(startsWithCL "/base/".data u) && !(startsWithCL "/node_modules/".data u)) =
        false →
      (fs.isDirectory (karmaResolvedPath cwd bp ou) = true →
        ∀ ct body,
          EsModulesMiddlewareFactory fs mg r cwd bp idx u ou ≠ MwResult.serve ct body) ∧
      (fs.pathExists (karmaResolvedPath cwd bp ou) = true →
       fs.isDirectory (karmaResolvedPath cwd bp ou) = true →
       ∀ i, idx.find?
           (fun f => fs.pathExists (pathJoin (karmaResolvedPath cwd bp ou) f)) = some i →
         EsModulesMiddlewareFactory fs mg r cwd bp idx u ou =
           MwResult.redirect (pathJoin ou i)) ∧
      (fs.pathExists (karmaResolvedPath cwd bp ou) = true →
       fs.isDirectory (karmaResolvedPath cwd bp ou) = true →
       idx.find?
           (fun f => fs.pathExists (pathJoin (karmaResolvedPath cwd bp ou) f)) = none →
         EsModulesMiddlewareFactory fs mg r cwd bp idx u ou = MwResult.nextHandler) ∧
      (fs.pathExists (karmaResolvedPath cwd bp ou) = false →
         EsModulesMiddlewareFactory fs mg r cwd bp idx u ou = MwResult.nextHandler)) := by
  have hserve : ∀ (fs : FSModel) (mg : List Char → Option (List Char)) (r : Resolver)
      (idx : List (List Char)) (ou rp : List Char),
      (fs.isDirectory rp = true →
        ∀ ct body, serveResolved fs mg r idx ou rp ≠ MwResult.serve ct body) ∧
      (fs.pathExists rp = true → fs.isDirectory rp = true →
       ∀ i, idx.find? (fun f => fs.pathExists (pathJoin rp f)) = some i →
         serveResolved fs mg r idx ou rp = MwResult.redirect (pathJoin ou i)) ∧
      (fs.pathExists rp = true → fs.isDirectory rp = true →
       idx.find? (fun f => fs.pathExists (pathJoin rp f)) = none →
         serveResolved fs mg r idx ou rp = MwResult.nextHandler) ∧
      (fs.pathExists rp = false → serveResolved fs mg r idx ou rp = MwResult.nextHandler) := by
    intro fs mg r idx ou rp
    refine ⟨?_, ?_, ?_, ?_⟩
    · intro hdir ct body
      by_cases hex : fs.pathExists rp = true
      · cases hfind : idx.find? (fun f => fs.pathExists (pathJoin rp f)) with
        | some i => simp [serveResolved, hex, hdir, hfind]
        | none => simp [serveResolved, hex, hdir, hfind]
      · have hex' : fs.pathExists rp = false := by simpa using hex
        simp [serveResolved, hex']
    · intro hex hdir i hfind
      simp [serveResolved, hex, hdir, hfind]
    · intro hex hdir hfind
      simp [serveResolved, hex, hdir, hfind]
    · intro hex
      simp [serveResolved, hex]
  constructor
  · intro fs mg r cwd bp idx ou
    have hlen : ¬((middlewareResolvedPath cwd bp ou).length < 1) := by
      have := middlewareResolvedPath_ne_nil cwd bp ou
      have hpos : 0 < (middlewareResolvedPath cwd bp ou).length :=
        List.length_pos.mpr this
      omega
    have hmw : middleware fs mg r cwd bp idx ou =
        serveResolved fs mg r idx ou (middlewareResolvedPath cwd bp ou) := by
      simp [middleware, hlen]
    rcases hserve fs mg r idx ou (middlewareResolvedPath cwd bp ou) with ⟨t1, t2, t3, t4⟩
    exact ⟨fun hdir ct body => hmw ▸ t1 hdir ct body,
           fun hex hdir i hfind => hmw ▸ t2 hex hdir i hfind,
           fun hex hdir hfind => hmw ▸ t3 hex hdir hfind,
           fun hex => hmw ▸ t4 hex⟩
  · intro fs mg r cwd bp idx u ou hguard
    have hlen : ¬((karmaResolvedPath cwd bp ou).length < 1) := by
      have := karmaResolvedPath_ne_nil cwd bp ou
      have hpos : 0 < (karmaResolvedPath cwd bp ou).length := List.length_pos.mpr this
      omega
    have hmw : EsModulesMiddlewareFactory fs mg r cwd bp idx u ou =
        serveResolved fs mg r idx ou (karmaResolvedPath cwd bp ou) := by
      simp [EsModulesMiddlewareFactory, hguard, hlen]
    rcases hserve fs mg r idx ou (karmaResolvedPath cwd bp ou) with ⟨t1, t2, t3, t4⟩
    exact ⟨fun hdir ct body => hmw ▸ t1 hdir ct body,
           fun hex hdir i hfind => hmw ▸ t2 hex hdir i hfind,
           fun hex hdir hfind => hmw ▸ t3 hex hdir hfind,
           fun hex => hmw ▸ t4 hex⟩

/-- C7 witness: the amended theorem applied to the concrete directory
request of the counterexample. -/
theorem c7_witness :
    fsDirA.pathExists (middlewareResolvedPath "/cwd".data "/root".data "/foo".data) =
      true ∧
    fsDirA.isDirectory (middlewareResolvedPath "/cwd".data "/root".data "/foo".data) =
      true ∧
    defaultIndexFiles.find?
        (fun f => fsDirA.pathExists
          (pathJoin (middlewareResolvedPath "/cwd".data "/root".data "/foo".data) f)) =
      some "index.html".data ∧
    middleware fsDirA (fun _ => none) failRes "/cwd".data "/root".data
      defaultIndexFiles "/foo".data = MwResult.redirect (pathJoin "/foo".data "index.html".data) :=
  ⟨by decide, by decide, by decide,
   (c7_directory_never_served.1 fsDirA (fun _ => none) failRes "/cwd".data "/root".data
     defaultIndexFiles "/foo".data).2.1 (by decide) (by decide) "index.html".data (by decide)⟩

/-- C8: a configuration lacking the required `paths` property makes the
middleware constructor fail immediately with the configuration error; no
handler value is produced, so no request is ever processed with such a
configuration. -/
theorem c8_missing_paths_fatal (cfg : EsmConfig) (h : cfg.paths = none) :
    middlewareFromConfig cfg = Except.error ConfigFault.configurationError ∧
    ∀ table, middlewareFromConfig cfg ≠ Except.ok table := by
  have he : middlewareFromConfig cfg = Except.error ConfigFault.configurationError := by
    unfold middlewareFromConfig
    rw [h]
  refine ⟨he, fun table hk => ?_⟩
  rw [he] at hk
  exact Except.noConfusion hk

/-- C8 witness: the theorem applied to the concrete empty configuration. -/
theorem c8_witness :
    (EsmConfig.mk none).paths = none ∧
    (middlewareFromConfig (EsmConfig.mk none) =
       Except.error ConfigFault.configurationError ∧
     ∀ table, middlewareFromConfig (EsmConfig.mk none) ≠ Except.ok table) :=
  ⟨rfl, c8_missing_paths_fatal (EsmConfig.mk none) rfl⟩

theorem startsWithCL_node_not_base (ou : List Char)
    (h : startsWithCL "/node_modules/".data ou = true) :
    startsWithCL "/base/".data ou = false := by
  rcases (startsWithCL_iff _ _).mp h with ⟨t, rfl⟩
  simp [startsWithCL, dropLit]

/-- C10: in the Karma handler, a `/node_modules/` request is resolved by
stripping the leading slash and resolving against the working directory —
the configured basePath plays no role, and the whole handler is independent
of it — while the basePath is joined exactly for `/base/` requests. -/
theorem c10_node_modules_cwd :
    (∀ (cwd bp1 bp2 ou : List Char), startsWithCL "/node_modules/".data ou = true →
      karmaResolvedPath cwd bp1 ou = pathResolve cwd (ou.drop 1) ∧
      karmaResolvedPath cwd bp1 ou = karmaResolvedPath cwd bp2 ou) ∧
    (∀ (fs : FSModel) (mg : List Char → Option (List Char)) (r : Resolver)
       (cwd bp1 bp2 : List Char) (idx : List (List Char)) (u ou : List Char),
      startsWithCL "/node_modules/".data ou = true →
      EsModulesMiddlewareFactory fs mg r cwd bp1 idx u ou =
        EsModulesMiddlewareFactory fs mg r cwd bp2 idx u ou) ∧
    (∀ (cwd bp ou : List Char), startsWithCL "/base/".data ou = true →
      karmaResolvedPath cwd bp ou = pathResolve cwd (pathJoin bp (ou.drop 6))) := by
  have hkr : ∀ (cwd bp ou : List Char), startsWithCL "/node_modules/".data ou = true →
      karmaResolvedPath cwd bp ou = pathResolve cwd (ou.drop 1) := by
    intro cwd bp ou h
    have hnb := startsWithCL_node_not_base ou h
    simp [karmaResolvedPath, hnb]
  refine ⟨?_, ?_, ?_⟩
  · intro cwd bp1 bp2 ou h
    exact ⟨hkr cwd bp1 ou h, by rw [hkr cwd bp1 ou h, hkr cwd bp2 ou h]⟩
  · intro fs mg r cwd bp1 bp2 idx u ou h
    simp only [EsModulesMiddlewareFactory, hkr cwd bp1 ou h, hkr cwd bp2 ou h]
  · intro cwd bp ou h
    simp [karmaResolvedPath, h]

/-- C10 witness: the theorem applied to a concrete `/node_modules/` request. -/
theorem c10_witness :
    startsWithCL "/node_modules/".data "/node_modules/x.js".data = true ∧
    (karmaResolvedPath "/cwd".data "/bp".data "/node_modules/x.js".data =
       pathResolve "/cwd".data ("/node_modules/x.js".data.drop 1) ∧
     karmaResolvedPath "/cwd".data "/bp".data "/node_modules/x.js".data =
       karmaResolvedPath "/cwd".data "/other".data "/node_modules/x.js".data) :=
  ⟨by decide,
   c10_node_modules_cwd.1 "/cwd".data "/bp".data "/other".data
     "/node_modules/x.js".data (by decide)⟩
